import Mathlib

/-!
# Verification of `notes-stats.py` against its specification

This file is a shallow embedding of the statistics pipeline of
`src/notes-stats.py` together with theorems settling the frozen claims.

Modelling conventions:
* File contents are `List Char`; a note is a record carrying the attributes
  the script reads per file (word count, line count, modification time in
  whole seconds, raw content).
* Shell pipelines that merely aggregate over the enumerated file set
  (`find … | wc -l`, `wc -w`, …) are modelled by the corresponding pure
  aggregation over the note list; the spec treats the traversal primitives
  as external collaborators.
* Python integer division by zero raises `ZeroDivisionError`; fallible
  computations are modelled with `Except PyErr`.
* Local calendar time is modelled with a fixed UTC offset of zero: a
  timestamp is seconds since the (modelled) epoch and civil dates convert
  to timestamps through an explicit day count.  The offset is a constant
  shift and none of the claims depend on its value.
-/

namespace NotesStats

/-- Error kinds a run of the script can raise.  `zeroDivisionError` models
Python's `ZeroDivisionError` from `//` with a zero divisor. -/
inductive PyErr where
  | zeroDivisionError
  deriving DecidableEq, Repr

/-- A note: one markdown file as the script observes it.  `words`/`lines`
are what `wc -w`/`wc -l` report, `mtime` is the modification timestamp in
whole seconds, `content` is the file text scanned by the pattern counter. -/
structure Note where
  words : Nat
  lines : Nat
  mtime : Nat
  content : List Char
  deriving DecidableEq, Repr

/-! ## Length distribution (`calculate_length_distribution`) -/

/-- Index of the word-count bucket a note falls into, mirroring the
`if words < 100 / elif … / else` chain of `calculate_length_distribution`. -/
def bucketIdx (words : Nat) : Nat :=
  if words < 100 then 0
  else if words < 500 then 1
  else if words < 1000 then 2
  else if words < 2000 then 3
  else if words < 5000 then 4
  else 5

/-- One step of the bucket-accumulation loop: increment the bucket the
current file falls into. -/
def bucketStep (buckets : List Nat) (n : Note) : List Nat :=
  buckets.set (bucketIdx n.words) (buckets.getD (bucketIdx n.words) 0 + 1)

/-- `calculate_length_distribution`: fold the per-file bucket increment over
the file list, starting from six empty buckets. -/
def lengthDistribution (notes : List Note) : List Nat :=
  notes.foldl bucketStep [0, 0, 0, 0, 0, 0]

theorem bucketIdx_lt_six (w : Nat) : bucketIdx w < 6 := by
  unfold bucketIdx
  repeat' split
  all_goals omega

theorem bucketStep_length (b : List Nat) (n : Note) :
    (bucketStep b n).length = b.length := by
  simp [bucketStep]

theorem set_incr_sum : ∀ (b : List Nat) (i : Nat), i < b.length →
    (b.set i (b.getD i 0 + 1)).sum = b.sum + 1 := by
  intro b
  induction b with
  | nil => intro i h; simp at h
  | cons x t ih =>
    intro i h
    cases i with
    | zero => simp [List.set]; omega
    | succ j =>
      have hj : j < t.length := by simpa using h
      have ihj := ih j hj
      simp only [List.getD_cons_succ, List.set_cons_succ, List.sum_cons]
      omega

theorem bucketStep_sum (b : List Nat) (n : Note) (h : b.length = 6) :
    (bucketStep b n).sum = b.sum + 1 := by
  have hlt : bucketIdx n.words < b.length := h ▸ bucketIdx_lt_six n.words
  exact set_incr_sum b (bucketIdx n.words) hlt

theorem lengthDistribution_aux : ∀ (notes : List Note) (b : List Nat),
    b.length = 6 →
    (notes.foldl bucketStep b).sum = b.sum + notes.length ∧
    (notes.foldl bucketStep b).length = 6 := by
  intro notes
  induction notes with
  | nil => intro b hb; simpa using hb
  | cons n t ih =>
    intro b hb
    have hb' : (bucketStep b n).length = 6 := by
      rw [bucketStep_length]; exact hb
    have := ih (bucketStep b n) hb'
    constructor
    · simp only [List.foldl_cons]
      rw [this.1, bucketStep_sum b n hb]
      simp [List.length_cons]
      omega
    · simpa using this.2

/-- C6: the six word-count buckets partition the note set — the bucket
counts sum to the total note count (and there are exactly 6 buckets).
Here the total note count is `notes.length`, the value
`calculate_basic_stats` obtains from `find … | wc -l`. -/
theorem lengthDistribution_partitions (notes : List Note) :
    (lengthDistribution notes).sum = notes.length ∧
    (lengthDistribution notes).length = 6 := by
  have := lengthDistribution_aux notes [0, 0, 0, 0, 0, 0] rfl
  simpa [lengthDistribution] using this

/-! ## Length-distribution rendering helpers (`generate_html`, lines 227-243) -/

/-- The bracket labels `ranges` of `generate_html`. -/
def ranges : List (List Char) :=
  [("0-100").toList, ("100-500").toList, ("500-1k").toList,
   ("1k-2k").toList, ("2k-5k").toList, ("5k+").toList]

/-- `length_dist.index(max(length_dist))`: Python `max` of the list followed
by `.index`, i.e. the first index holding the maximum value. -/
def mostCommonIdx (ld : List Nat) : Nat :=
  (ld.findIdx (fun c => c == ld.foldr max 0))

/-- `next((i for i in range(5, -1, -1) if length_dist[i] > 0), 0)`:
highest-index non-empty bucket, defaulting to 0. -/
def longestIdx (ld : List Nat) : Nat :=
  (((List.range 6).reverse).find? (fun i => 0 < ld.getD i 0)).getD 0

/-- `next((i for i in range(6) if length_dist[i] > 0), 0)`:
lowest-index non-empty bucket, defaulting to 0. -/
def shortestIdx (ld : List Nat) : Nat :=
  ((List.range 6).find? (fun i => 0 < ld.getD i 0)).getD 0

/-- A demo note with a given word count (the other attributes do not
matter for the length distribution). -/
def demoNote (w : Nat) : Note := { words := w, lines := 0, mtime := 0, content := [] }

/-- C7: on the 4-file note set with word counts 50, 300, 1200, 6000 the
bucket counts are [1,1,0,1,0,1], the "longest" bracket is "5k+" with
count 1 and the "shortest" bracket is "0-100" with count 1. -/
theorem lengthDistribution_example :
    lengthDistribution [demoNote 50, demoNote 300, demoNote 1200, demoNote 6000] =
      [1, 1, 0, 1, 0, 1] ∧
    ranges.getD (longestIdx [1, 1, 0, 1, 0, 1]) [] = ("5k+").toList ∧
    [1, 1, 0, 1, 0, 1].getD (longestIdx [1, 1, 0, 1, 0, 1]) 0 = 1 ∧
    ranges.getD (shortestIdx [1, 1, 0, 1, 0, 1]) [] = ("0-100").toList ∧
    [1, 1, 0, 1, 0, 1].getD (shortestIdx [1, 1, 0, 1, 0, 1]) 0 = 1 := by
  refine ⟨?_, ?_, ?_, ?_, ?_⟩ <;> decide

/-! ## Task checklist patterns (`count_pattern`, `calculate_task_stats`)

`count_pattern` shells out to `grep -roh PAT | wc -l`, i.e. it counts
non-overlapping pattern occurrences across the note files.  The two task
patterns are fixed-width: `\- \[[ x]\]` matches the five characters
`- [c]` with `c` either a space or `x`, and `\- \[x\]` matches `- [x]`.
We embed the two scans directly as leftmost non-overlapping counters. -/

/-- Does the text start with a checkbox marker `- [ ]` or `- [x]`
(the grep pattern `\- \[[ x]\]`)? -/
def matchTaskAny : List Char → Bool
  | '-' :: ' ' :: '[' :: c :: ']' :: _ => c == ' ' || c == 'x'
  | _ => false

/-- Does the text start with a completed checkbox `- [x]`
(the grep pattern `\- \[x\]`)? -/
def matchTaskDone : List Char → Bool
  | '-' :: ' ' :: '[' :: 'x' :: ']' :: _ => true
  | _ => false

/-- Fuel-driven scanner kernel: at each position, either a match of the
five-character pattern recognised by `p` is counted and the scan resumes
after it, or the scan advances one character.  The fuel only makes the
recursion structural; one unit per consumed character suffices. -/
def scanGo (p : List Char → Bool) : Nat → List Char → Nat
  | _, [] => 0
  | 0, _ => 0
  | fuel + 1, c :: rest =>
    if p (c :: rest) then scanGo p fuel (rest.drop 4) + 1
    else scanGo p fuel rest

/-- Leftmost non-overlapping occurrence count of the pattern recognised by
`p`, scanning the whole text. -/
def countScan (p : List Char → Bool) (s : List Char) : Nat :=
  scanGo p s.length s

/-- Count of non-overlapping occurrences of the any-checkbox pattern. -/
def countTaskAny (s : List Char) : Nat := countScan matchTaskAny s

/-- Count of non-overlapping occurrences of the completed-checkbox pattern. -/
def countTaskDone (s : List Char) : Nat := countScan matchTaskDone s

theorem scanGo_fuel (p : List Char → Bool) : ∀ (n fuel fuel' : Nat) (s : List Char),
    s.length ≤ n → s.length ≤ fuel → s.length ≤ fuel' →
    scanGo p fuel s = scanGo p fuel' s := by
  intro n
  induction n with
  | zero =>
    intro fuel fuel' s _ _ _
    have : s = [] := List.length_eq_zero.mp (by omega)
    subst this
    cases fuel <;> cases fuel' <;> rfl
  | succ n ih =>
    intro fuel fuel' s hn hf hf'
    cases s with
    | nil => cases fuel <;> cases fuel' <;> rfl
    | cons c rest =>
      simp only [List.length_cons] at hn hf hf'
      obtain ⟨f, rfl⟩ : ∃ f, fuel = f + 1 := ⟨fuel - 1, by omega⟩
      obtain ⟨f', rfl⟩ : ∃ f', fuel' = f' + 1 := ⟨fuel' - 1, by omega⟩
      show (if p (c :: rest) then scanGo p f (rest.drop 4) + 1 else scanGo p f rest) =
        (if p (c :: rest) then scanGo p f' (rest.drop 4) + 1 else scanGo p f' rest)
      have hd := List.length_drop 4 rest
      by_cases hp : p (c :: rest) = true
      · rw [if_pos hp, if_pos hp,
          ih f f' (rest.drop 4) (by omega) (by omega) (by omega)]
      · rw [if_neg hp, if_neg hp, ih f f' rest (by omega) (by omega) (by omega)]

theorem countScan_nil (p : List Char → Bool) : countScan p [] = 0 := rfl

theorem countScan_cons (p : List Char → Bool) (c : Char) (rest : List Char) :
    countScan p (c :: rest) =
      if p (c :: rest) then countScan p (rest.drop 4) + 1
      else countScan p rest := by
  unfold countScan
  have h1 : scanGo p (c :: rest).length (c :: rest) =
      if p (c :: rest) then scanGo p rest.length (rest.drop 4) + 1
      else scanGo p rest.length rest := rfl
  rw [h1]
  have hd := List.length_drop 4 rest
  by_cases hp : p (c :: rest) = true
  · rw [if_pos hp, if_pos hp,
      scanGo_fuel p rest.length rest.length (rest.drop 4).length (rest.drop 4)
        (by omega) (by omega) (by omega)]
  · rw [if_neg hp, if_neg hp]

theorem matchTaskAny_iff (s : List Char) :
    matchTaskAny s = true ↔
      ∃ c t, (c = ' ' ∨ c = 'x') ∧ s = '-' :: ' ' :: '[' :: c :: ']' :: t := by
  constructor
  · intro h
    unfold matchTaskAny at h
    split at h
    · rename_i c t
      refine ⟨c, t, ?_, rfl⟩
      rcases Bool.or_eq_true_iff.mp h with h' | h' <;>
        [left; right] <;> exact eq_of_beq h'
    · exact absurd h (by simp)
  · rintro ⟨c, t, hc, rfl⟩
    rcases hc with rfl | rfl <;> rfl

theorem matchTaskDone_iff (s : List Char) :
    matchTaskDone s = true ↔
      ∃ t, s = '-' :: ' ' :: '[' :: 'x' :: ']' :: t := by
  constructor
  · intro h
    unfold matchTaskDone at h
    split at h
    · rename_i t; exact ⟨t, rfl⟩
    · exact absurd h (by simp)
  · rintro ⟨t, rfl⟩; rfl

theorem countTaskDone_le_aux : ∀ (n : Nat) (s : List Char), s.length ≤ n →
    countTaskDone s ≤ countTaskAny s := by
  intro n
  induction n with
  | zero =>
    intro s h
    have : s = [] := List.length_eq_zero.mp (Nat.le_zero.mp h)
    subst this
    simp [countTaskAny, countTaskDone, countScan_nil]
  | succ n ih =>
    intro s hs
    unfold countTaskAny countTaskDone
    by_cases hA : matchTaskAny s = true
    · obtain ⟨c, t, hc, rfl⟩ := (matchTaskAny_iff _).mp hA
      rcases hc with rfl | rfl
      · -- unchecked box: the any-counter advances 5, the done-counter
        -- steps through the five characters without matching.
        have hlen : t.length ≤ n := by
          simp only [List.length_cons] at hs; omega
        have e1 : countScan matchTaskAny ('-' :: ' ' :: '[' :: ' ' :: ']' :: t) =
            countScan matchTaskAny t + 1 := by
          rw [countScan_cons]; simp [matchTaskAny]
        have e2 : countScan matchTaskDone ('-' :: ' ' :: '[' :: ' ' :: ']' :: t) =
            countScan matchTaskDone t := by
          rw [countScan_cons, if_neg (by simp [matchTaskDone]),
            countScan_cons, if_neg (by simp [matchTaskDone]),
            countScan_cons, if_neg (by simp [matchTaskDone]),
            countScan_cons, if_neg (by simp [matchTaskDone]),
            countScan_cons, if_neg (by simp [matchTaskDone])]
        rw [e1, e2]
        exact Nat.le_succ_of_le (ih t hlen)
      · -- completed box: both counters advance 5 and count one match.
        have hlen : t.length ≤ n := by
          simp only [List.length_cons] at hs; omega
        have e1 : countScan matchTaskAny ('-' :: ' ' :: '[' :: 'x' :: ']' :: t) =
            countScan matchTaskAny t + 1 := by
          rw [countScan_cons]; simp [matchTaskAny]
        have e2 : countScan matchTaskDone ('-' :: ' ' :: '[' :: 'x' :: ']' :: t) =
            countScan matchTaskDone t + 1 := by
          rw [countScan_cons]; simp [matchTaskDone]
        rw [e1, e2]
        exact Nat.succ_le_succ (ih t hlen)
    · have hD : matchTaskDone s = false := by
        cases hDt : matchTaskDone s
        · rfl
        · obtain ⟨t, rfl⟩ := (matchTaskDone_iff _).mp hDt
          exact absurd (by rfl : matchTaskAny ('-' :: ' ' :: '[' :: 'x' :: ']' :: t) = true) hA
      cases s with
      | nil => simp [countScan_nil]
      | cons c rest =>
        have hlen : rest.length ≤ n := by
          simp only [List.length_cons] at hs; omega
        rw [countScan_cons, if_neg (show ¬matchTaskDone (c :: rest) = true by simp [hD]),
          countScan_cons, if_neg hA]
        exact ih rest hlen

theorem countTaskDone_le (s : List Char) : countTaskDone s ≤ countTaskAny s :=
  countTaskDone_le_aux s.length s (Nat.le_refl _)

/-- Total checkbox count across all notes (`count_pattern('\- \[[ x]\]')`). -/
def countPatternTaskAny (notes : List Note) : Nat :=
  (notes.map (fun n => countTaskAny n.content)).sum

/-- Completed checkbox count across all notes (`count_pattern('\- \[x\]')`). -/
def countPatternTaskDone (notes : List Note) : Nat :=
  (notes.map (fun n => countTaskDone n.content)).sum

/-- The metric set produced by `calculate_task_stats`.  `tasksUnchecked` is
an `Int` because the Python code computes it as `total - completed`. -/
structure TaskStats where
  totalTasks : Nat
  tasksCompleted : Nat
  tasksUnchecked : Int
  taskCompletion : Nat
  taskCompletionAngle : Nat
  deriving DecidableEq, Repr

/-- `calculate_task_stats`. -/
def calculateTaskStats (notes : List Note) : TaskStats :=
  let total := countPatternTaskAny notes
  let completed := countPatternTaskDone notes
  let completion := if 0 < total then completed * 100 / total else 0
  { totalTasks := total
    tasksCompleted := completed
    tasksUnchecked := (total : Int) - (completed : Int)
    taskCompletion := completion
    taskCompletionAngle := completion * 360 / 100 }

theorem completed_le_total (notes : List Note) :
    countPatternTaskDone notes ≤ countPatternTaskAny notes := by
  unfold countPatternTaskDone countPatternTaskAny
  induction notes with
  | nil => simp
  | cons n t ih =>
    simp only [List.map_cons, List.sum_cons]
    exact Nat.add_le_add (countTaskDone_le n.content) ih

/-- C10: every line matched by the completed-checkbox pattern is matched by
the any-checkbox pattern, so `tasks_completed <= total_tasks` and the
subtraction `total - completed` never yields a negative unchecked count. -/
theorem tasksUnchecked_nonneg (notes : List Note) :
    (calculateTaskStats notes).tasksCompleted ≤ (calculateTaskStats notes).totalTasks ∧
    0 ≤ (calculateTaskStats notes).tasksUnchecked := by
  have h := completed_le_total notes
  constructor
  · simpa [calculateTaskStats] using h
  · simp only [calculateTaskStats]
    omega

/-! ## Calendar model for `calculate_temporal_stats`

`datetime` arithmetic is embedded as proleptic-Gregorian civil dates.
`now - timedelta(days=k)` is `k` applications of `predDay`;
`.replace(day=1, hour=0, …)` keeps only the (year, month) pair;
`.timestamp()` is modelled with a fixed zero UTC offset as
`86400 * (days before the date counted from year 0)` — a constant shift
that none of the claims depend on. -/

/-- A civil date (the time-of-day components are erased by the
`replace(day=1, hour=0, minute=0, second=0, microsecond=0)` call before
they are ever used by the monthly logic). -/
structure Date where
  year : Nat
  month : Nat
  day : Nat
  deriving DecidableEq, Repr

/-- Gregorian leap-year rule. -/
def isLeap (y : Nat) : Bool :=
  (y % 4 == 0 && y % 100 != 0) || y % 400 == 0

/-- Days in a month (1-based months). -/
def daysInMonth (y m : Nat) : Nat :=
  if m = 2 then (if isLeap y then 29 else 28)
  else if m = 4 ∨ m = 6 ∨ m = 9 ∨ m = 11 then 30
  else 31

/-- A structurally valid civil date. -/
def ValidDate (x : Date) : Prop :=
  1 ≤ x.month ∧ x.month ≤ 12 ∧ 1 ≤ x.day ∧ x.day ≤ daysInMonth x.year x.month

instance (x : Date) : Decidable (ValidDate x) := by
  unfold ValidDate; infer_instance

/-- The previous calendar day. -/
def predDay (x : Date) : Date :=
  if 2 ≤ x.day then ⟨x.year, x.month, x.day - 1⟩
  else if 2 ≤ x.month then ⟨x.year, x.month - 1, daysInMonth x.year (x.month - 1)⟩
  else ⟨x.year - 1, 12, 31⟩

/-- `d - timedelta(days=n)`. -/
def subDays (n : Nat) (x : Date) : Date := predDay^[n] x

/-- Number of leap years in `[0, y)`. -/
def leapsBefore (y : Nat) : Nat :=
  (y + 3) / 4 - (y + 99) / 100 + (y + 399) / 400

/-- Days in the years `[0, y)`. -/
def daysBeforeYear (y : Nat) : Nat := 365 * y + leapsBefore y

/-- Days in the months `[1, m)` of year `y`. -/
def daysBeforeMonth (y m : Nat) : Nat :=
  ((List.range (m - 1)).map (fun k => daysInMonth y (k + 1))).sum

/-- Timestamp (whole seconds, zero UTC offset) of midnight on a civil date. -/
def tsDate (y m d : Nat) : Nat :=
  86400 * (daysBeforeYear y + daysBeforeMonth y m + (d - 1))

/-- Timestamp of the start of a `(year, month)` pair:
`int(month_start.timestamp())`. -/
def tsMonthStart (ym : Nat × Nat) : Nat := tsDate ym.1 ym.2 1

/-- The month-end computation of the loop body, with its explicit
December→January rollover branch. -/
def monthEnd (ym : Nat × Nat) : Nat × Nat :=
  if ym.2 = 12 then (ym.1 + 1, 1) else (ym.1, ym.2 + 1)

/-- One entry of `monthly_counts`: the `(year, month)` of `month_start`
(rendered later through `strftime('%b %Y')`) and the note count of the
bucket. -/
structure MonthEntry where
  start : Nat × Nat
  count : Nat
  deriving DecidableEq, Repr

/-- The loop body for one value of `i`: `month_start` is the first of the
month of `now - timedelta(days=30*i)`; the count is produced by
`find -newermt '@start' ! -newermt '@end' | wc -l`, i.e. it counts notes
with `start < mtime <= end`. -/
def mkMonthEntry (notes : List Note) (t : Date) : MonthEntry :=
  let ms := (t.year, t.month)
  { start := ms
    count := notes.countP (fun n =>
      decide (tsMonthStart ms < n.mtime) && decide (n.mtime ≤ tsMonthStart (monthEnd ms))) }

/-- `for i in range(5, -1, -1)` of `calculate_temporal_stats`: the six
monthly-activity entries, oldest first. -/
def monthlyActivity (notes : List Note) (now : Date) : List MonthEntry :=
  ([5, 4, 3, 2, 1, 0] : List Nat).map (fun i => mkMonthEntry notes (subDays (30 * i) now))

/-- The calendar month immediately before a `(year, month)` pair
(proper month arithmetic). -/
def prevMonth (ym : Nat × Nat) : Nat × Nat :=
  if ym.2 = 1 then (ym.1 - 1, 12) else (ym.1, ym.2 - 1)

/-- Modelled from the spec: "for each of the trailing 6 calendar months
(current month inclusive)", oldest first — the six distinct consecutive
calendar months ending at the current one. -/
def specTrailingSixMonths (now : Date) : List (Nat × Nat) :=
  ([5, 4, 3, 2, 1, 0] : List Nat).map (fun i => prevMonth^[i] (now.year, now.month))

/-- Chronological key of a `(year, month)` pair (lexicographic order,
months being 1..12). -/
def monthKey (ym : Nat × Nat) : Nat := 12 * ym.1 + ym.2

/-- Chronological key of the month of a date. -/
def dateMonthKey (x : Date) : Nat := 12 * x.year + x.month

theorem daysInMonth_bounds (y m : Nat) :
    28 ≤ daysInMonth y m ∧ daysInMonth y m ≤ 31 := by
  unfold daysInMonth
  repeat' split
  all_goals omega

/-- Number of remaining safe `predDay` steps: while the year is positive a
full year of slack is available; in year 0 the steps until `(0, 1, 1)` are
bounded below month by month. -/
def slackOf (x : Date) : Nat :=
  if 1 ≤ x.year then 339 else 28 * (x.month - 1) + (x.day - 1)

theorem daysInMonth_twelve (y : Nat) : daysInMonth y 12 = 31 := by
  simp [daysInMonth]

theorem predDay_step (x : Date) (hv : ValidDate x) (hs : 1 ≤ slackOf x) :
    ValidDate (predDay x) ∧ dateMonthKey (predDay x) ≤ dateMonthKey x ∧
      slackOf x - 1 ≤ slackOf (predDay x) := by
  obtain ⟨hm1, hm2, hd1, hd2⟩ := hv
  unfold predDay
  by_cases hday : 2 ≤ x.day
  · rw [if_pos hday]
    refine ⟨⟨?_, ?_, ?_, ?_⟩, ?_, ?_⟩
    · exact hm1
    · exact hm2
    · simp only []; omega
    · simp only []; omega
    · simp only [dateMonthKey]; omega
    · simp only [slackOf]
      split <;> omega
  · rw [if_neg hday]
    by_cases hmon : 2 ≤ x.month
    · rw [if_pos hmon]
      have hb := daysInMonth_bounds x.year (x.month - 1)
      refine ⟨⟨?_, ?_, ?_, ?_⟩, ?_, ?_⟩
      · simp only []; omega
      · simp only []; omega
      · simp only []; omega
      · simp only []; omega
      · simp only [dateMonthKey]; omega
      · simp only [slackOf]
        split <;> omega
    · rw [if_neg hmon]
      have hy1 : 1 ≤ x.year := by
        by_contra hy
        have hx0 : x.year = 0 := by omega
        simp [slackOf, hx0] at hs
        omega
      refine ⟨⟨?_, ?_, ?_, ?_⟩, ?_, ?_⟩
      · simp only []; omega
      · simp only []; omega
      · simp only []; omega
      · simp only [daysInMonth_twelve]; omega
      · simp only [dateMonthKey]; omega
      · simp only [slackOf]
        split <;> split <;> omega

theorem subDays_chain : ∀ (n : Nat) (x : Date), ValidDate x → n ≤ slackOf x →
    ValidDate (predDay^[n] x) ∧ dateMonthKey (predDay^[n] x) ≤ dateMonthKey x ∧
      slackOf x - n ≤ slackOf (predDay^[n] x) := by
  intro n
  induction n with
  | zero => intro x hv _; simpa using hv
  | succ n ih =>
    intro x hv hn
    have hih := ih x hv (by omega)
    have hstep := predDay_step (predDay^[n] x) hih.1 (by omega)
    rw [Function.iterate_succ_apply']
    exact ⟨hstep.1, le_trans hstep.2.1 hih.2.1, by omega⟩

set_option maxRecDepth 8000 in
/-- C3 counterexample: with the current date 2026-03-31, the six sampled
months are Nov 2025, Dec 2025, Dec 2025, Jan 2026, Mar 2026, Mar 2026 —
not the trailing six calendar months (Dec and Mar are duplicated, Oct and
Feb are skipped); moreover a note modified exactly at a month start
(2026-03-01 00:00:00) is counted by no bucket although it lies in the
claimed half-open interval `[month_start, next_month_start)`. -/
theorem monthlyActivity_counterexample :
    ((monthlyActivity [] ⟨2026, 3, 31⟩).map (fun e => e.start) ≠
      specTrailingSixMonths ⟨2026, 3, 31⟩) ∧
    ((monthlyActivity [{ words := 0, lines := 0, mtime := tsDate 2026 3 1, content := [] }]
        ⟨2026, 3, 31⟩).map (fun e => e.count) = [0, 0, 0, 0, 0, 0]) ∧
    tsMonthStart (2026, 3) ≤ tsDate 2026 3 1 ∧
    tsDate 2026 3 1 < tsMonthStart (monthEnd (2026, 3)) := by
  refine ⟨by decide, by decide, by decide, by decide⟩

/-- C3 (amended): for every note set and valid current date with positive
year, the monthly activity has exactly 6 entries whose month starts are in
nondecreasing chronological order, oldest first (sampled months may repeat
or skip a calendar month because the loop steps by 30 days); the bucket end
is the start of the following month with the December→January rollover; and
each entry counts exactly the notes whose modification time lies in the
half-open interval `(month_start, next_month_start]` — exclusive at the
start and inclusive at the end, not `[month_start, next_month_start)`. -/
theorem monthlyActivity_amended (notes : List Note) (now : Date)
    (hv : ValidDate now) (hy : 1 ≤ now.year) :
    (monthlyActivity notes now).length = 6 ∧
    List.Chain' (fun a b => monthKey a.start ≤ monthKey b.start)
      (monthlyActivity notes now) ∧
    ∀ e ∈ monthlyActivity notes now,
      e.count = notes.countP (fun n =>
        decide (tsMonthStart e.start < n.mtime) &&
        decide (n.mtime ≤ tsMonthStart (monthEnd e.start))) := by
  have hslack : slackOf now = 339 := by simp [slackOf, hy]
  have hkey : ∀ k : Nat, k + 30 ≤ 339 →
      dateMonthKey (subDays (k + 30) now) ≤ dateMonthKey (subDays k now) := by
    intro k hk
    have hb := subDays_chain k now hv (by omega)
    have h30 := subDays_chain 30 (predDay^[k] now) hb.1 (by omega)
    have he : subDays (k + 30) now = predDay^[30] (predDay^[k] now) := by
      unfold subDays
      rw [Nat.add_comm k 30, Function.iterate_add_apply]
    rw [he]
    exact h30.2.1
  refine ⟨by simp [monthlyActivity], ?_, ?_⟩
  · have h5 := hkey 120 (by omega)
    have h4 := hkey 90 (by omega)
    have h3 := hkey 60 (by omega)
    have h2 := hkey 30 (by omega)
    have h1 := hkey 0 (by omega)
    simp only [monthlyActivity, List.map_cons, List.map_nil, List.chain'_cons,
      List.chain'_singleton, and_true]
    have hkeq : ∀ m : Nat,
        monthKey (mkMonthEntry notes (subDays m now)).start =
          dateMonthKey (subDays m now) := by
      intro m; simp [mkMonthEntry, monthKey, dateMonthKey]
    refine ⟨?_, ?_, ?_, ?_, ?_⟩ <;> rw [hkeq, hkeq] <;> norm_num at h5 h4 h3 h2 h1 ⊢
    · exact h5
    · exact h4
    · exact h3
    · exact h2
    · exact h1
  · intro e he
    obtain ⟨i, _, rfl⟩ := List.mem_map.mp he
    rfl

/-- Witness for the amended C3 at the concrete current date 2026-03-31. -/
theorem monthlyActivity_amended_witness :
    ValidDate ⟨2026, 3, 31⟩ ∧ 1 ≤ (2026 : Nat) ∧
    (monthlyActivity [] ⟨2026, 3, 31⟩).length = 6 ∧
    List.Chain' (fun a b => monthKey a.start ≤ monthKey b.start)
      (monthlyActivity [] ⟨2026, 3, 31⟩) := by
  have h := monthlyActivity_amended [] ⟨2026, 3, 31⟩ (by decide) (by norm_num)
  exact ⟨by decide, by norm_num, h.1, h.2.1⟩

/-! ## Day-of-week activity (`calculate_temporal_stats`, lines 105-119) -/

/-- The `days` list of the script, Monday first. -/
def dayNames : List (List Char) :=
  [("Mon").toList, ("Tue").toList, ("Wed").toList, ("Thu").toList,
   ("Fri").toList, ("Sat").toList, ("Sun").toList]

/-- Monday-first weekday index of a timestamp.  Day 0 of the model's epoch
(year 0, Jan 1, proleptic Gregorian) is a Saturday, index 5.  This embeds
`datetime.fromtimestamp(ts).strftime('%a')` with the fixed zero UTC offset
of the model. -/
def dowIndex (mt : Nat) : Nat := (mt / 86400 + 5) % 7

/-- The `%a` weekday name of a timestamp. -/
def dayNameOf (mt : Nat) : List Char := dayNames.getD (dowIndex mt) []

/-- One entry of the `day_of_week` list. -/
structure DowEntry where
  day : List Char
  count : Nat
  deriving DecidableEq, Repr

/-- `[{'day': day, 'count': dow_counts.get(day, 0)} for day in days]`:
for each weekday name, the number of notes whose modification timestamp
falls on that weekday. -/
def dayOfWeek (notes : List Note) : List DowEntry :=
  dayNames.map (fun d => ⟨d, notes.countP (fun n => dayNameOf n.mtime == d)⟩)

/-- Python's `max(xs, key=...)` with start element `d`: fold keeping the
current maximum, replacing it only on a strictly greater key, so the first
maximal element wins. -/
def pyMax (l : List DowEntry) (d : DowEntry) : DowEntry :=
  l.foldl (fun b x => if b.count < x.count then x else b) d

/-- `max(temporal['day_of_week'], key=lambda x: x['count'])`.  The empty
branch is unreachable: the list always has 7 entries (Python `max` would
raise on an empty sequence). -/
def mostActiveDay (notes : List Note) : DowEntry :=
  match dayOfWeek notes with
  | [] => ⟨[], 0⟩
  | e :: es => pyMax es e

theorem countP_disjoint (p q : α → Bool) : ∀ (l : List α),
    (∀ x ∈ l, ¬(p x = true ∧ q x = true)) →
    l.countP (fun x => p x || q x) = l.countP p + l.countP q := by
  intro l
  induction l with
  | nil => intro _; simp
  | cons a t ih =>
    intro h
    have ht := ih (fun x hx => h x (List.mem_cons_of_mem a hx))
    have ha := h a (List.mem_cons_self a t)
    simp only [List.countP_cons, ht]
    cases hp : p a <;> cases hq : q a <;> simp_all <;> omega

theorem sum_countP_names (g : α → List Char) : ∀ (names : List (List Char)),
    names.Nodup → ∀ l : List α,
    ((names.map (fun d => l.countP (fun x => g x == d))).sum =
      l.countP (fun x => decide (g x ∈ names))) := by
  intro names
  induction names with
  | nil =>
    intro _ l
    simp [List.countP_eq_zero]
  | cons d names' ih =>
    intro hnd l
    have hd : d ∉ names' := (List.nodup_cons.mp hnd).1
    have ih' := ih (List.nodup_cons.mp hnd).2 l
    simp only [List.map_cons, List.sum_cons, ih']
    have hdisj := countP_disjoint (fun x => g x == d)
      (fun x => decide (g x ∈ names')) l (by
        intro x _ hx
        obtain ⟨h1, h2⟩ := hx
        exact hd (by simpa using (eq_of_beq h1) ▸ (of_decide_eq_true h2)))
    rw [← hdisj]
    apply List.countP_congr
    intro x _
    simp [List.mem_cons]

theorem dayNameOf_mem (mt : Nat) : dayNameOf mt ∈ dayNames := by
  have h7 : dowIndex mt < 7 := Nat.mod_lt _ (by norm_num)
  have hlen : dowIndex mt < dayNames.length := by simpa [dayNames] using h7
  unfold dayNameOf
  rw [List.getD_eq_getElem dayNames [] hlen]
  exact List.getElem_mem hlen

theorem dayOfWeek_sum (notes : List Note) :
    ((dayOfWeek notes).map (fun e => e.count)).sum = notes.length := by
  have hmap : (dayOfWeek notes).map (fun e => e.count) =
      dayNames.map (fun d => notes.countP (fun n => dayNameOf n.mtime == d)) := rfl
  rw [hmap,
    sum_countP_names (fun n : Note => dayNameOf n.mtime) dayNames (by decide) notes,
    List.countP_eq_length]
  intro n _
  simpa using dayNameOf_mem n.mtime

set_option maxRecDepth 8000 in
/-- C4 counterexample: with the current date 2026-03-31 two of the six
sampled months coincide (March 2026 twice), so a single note modified on
2026-03-15 is counted twice and the monthly-activity counts sum to 2,
exceeding the total note count 1. -/
theorem temporalCounts_counterexample :
    (((monthlyActivity
        [{ words := 0, lines := 0, mtime := tsDate 2026 3 15, content := [] }]
        ⟨2026, 3, 31⟩).map (fun e => e.count)).sum = 2) ∧
    ([{ words := 0, lines := 0, mtime := tsDate 2026 3 15, content := [] }] :
      List Note).length = 1 := by
  exact ⟨by decide, rfl⟩

/-- C4 (amended): every temporal bucket count is a non-negative integer;
the 7 day-of-week counts sum to at most the total note count (in fact
exactly, in this model where every file has a modification time); each
monthly-activity count individually is at most the total note count, but
the 6 monthly counts together may exceed it when sampled months coincide
(see the counterexample). -/
theorem temporalCounts_amended (notes : List Note) (now : Date) :
    ((dayOfWeek notes).map (fun e => e.count)).sum ≤ notes.length ∧
    (∀ e ∈ dayOfWeek notes, 0 ≤ e.count) ∧
    ∀ e ∈ monthlyActivity notes now, e.count ≤ notes.length := by
  refine ⟨le_of_eq (dayOfWeek_sum notes), fun e _ => Nat.zero_le _, ?_⟩
  intro e he
  obtain ⟨i, _, rfl⟩ := List.mem_map.mp he
  exact List.countP_le_length _

/-- Witness for the amended C4 at a concrete input. -/
theorem temporalCounts_amended_witness :
    ((dayOfWeek [demoNote 50]).map (fun e => e.count)).sum ≤
      ([demoNote 50] : List Note).length ∧
    ∀ e ∈ monthlyActivity [demoNote 50] ⟨2026, 1, 1⟩,
      e.count ≤ ([demoNote 50] : List Note).length := by
  exact ⟨(temporalCounts_amended [demoNote 50] ⟨2026, 1, 1⟩).1,
    (temporalCounts_amended [demoNote 50] ⟨2026, 1, 1⟩).2.2⟩

theorem pyMax_spec : ∀ (xs : List DowEntry) (a : DowEntry),
    ∃ pre post, a :: xs = pre ++ pyMax xs a :: post ∧
      (∀ e ∈ pre, e.count < (pyMax xs a).count) ∧
      (∀ e ∈ a :: xs, e.count ≤ (pyMax xs a).count) := by
  intro xs
  induction xs with
  | nil =>
    intro a
    exact ⟨[], [], rfl, by simp, by simp [pyMax]⟩
  | cons x t ih =>
    intro a
    by_cases h : a.count < x.count
    · have hstep : pyMax (x :: t) a = pyMax t x := by
        simp [pyMax, List.foldl_cons, if_pos h]
      obtain ⟨pre, post, heq, hlt, hle⟩ := ih x
      refine ⟨a :: pre, post, ?_, ?_, ?_⟩
      · rw [hstep]; simpa using congrArg (List.cons a) heq
      · intro e he
        rw [hstep]
        rcases List.mem_cons.mp he with rfl | hp
        · exact lt_of_lt_of_le h (hle x (List.mem_cons_self x t))
        · exact hlt e hp
      · intro e he
        rw [hstep]
        rcases List.mem_cons.mp he with rfl | hp
        · exact le_of_lt (lt_of_lt_of_le h (hle x (List.mem_cons_self x t)))
        · exact hle e hp
    · have hstep : pyMax (x :: t) a = pyMax t a := by
        simp [pyMax, List.foldl_cons, if_neg h]
      obtain ⟨pre, post, heq, hlt, hle⟩ := ih a
      cases pre with
      | nil =>
        have hr : pyMax t a = a := by
          have := congrArg (fun l => l.headD a) heq
          simpa using this.symm
        refine ⟨[], x :: t, ?_, by simp, ?_⟩
        · rw [hstep, hr]; rfl
        · intro e he
          rw [hstep, hr]
          rcases List.mem_cons.mp he with rfl | hp
          · exact le_refl _
          rcases List.mem_cons.mp hp with rfl | hp'
          · omega
          · have := hle e (List.mem_cons_of_mem a hp')
            rw [hr] at this
            exact this
      | cons p pre' =>
        have hpa : p = a ∧ t = pre' ++ pyMax t a :: post := by
          have h1 := congrArg (fun l => l.headD a) heq
          have h2 := congrArg List.tail heq
          simp at h1 h2
          exact ⟨h1.symm, h2⟩
        refine ⟨a :: x :: pre', post, ?_, ?_, ?_⟩
        · rw [hstep]
          simp only [List.cons_append]
          rw [← hpa.2]
        · intro e he
          rw [hstep]
          have hac : a.count < (pyMax t a).count := by
            have := hlt p (by simp)
            rw [hpa.1] at this
            exact this
          rcases List.mem_cons.mp he with rfl | hp
          · exact hac
          rcases List.mem_cons.mp hp with rfl | hp'
          · omega
          · exact hlt e (by simp [hp'])
        · intro e he
          rw [hstep]
          have hac : a.count < (pyMax t a).count := by
            have := hlt p (by simp)
            rw [hpa.1] at this
            exact this
          rcases List.mem_cons.mp he with rfl | hp
          · exact le_of_lt hac
          rcases List.mem_cons.mp hp with rfl | hp'
          · omega
          · exact hle e (List.mem_cons_of_mem a hp')

/-- C8: the day-of-week activity has exactly 7 entries in Monday-first
order (`Mon`..`Sun`), every count is non-negative, and the most-active
weekday is a maximal-count entry, ties resolved in favour of the first
such weekday in Monday-first order (every entry strictly before it has a
strictly smaller count). -/
theorem dayOfWeek_mostActive (notes : List Note) :
    (dayOfWeek notes).length = 7 ∧
    (dayOfWeek notes).map (fun e => e.day) = dayNames ∧
    (∀ e ∈ dayOfWeek notes, 0 ≤ e.count) ∧
    ∃ pre post, dayOfWeek notes = pre ++ mostActiveDay notes :: post ∧
      (∀ e ∈ pre, e.count < (mostActiveDay notes).count) ∧
      (∀ e ∈ dayOfWeek notes, e.count ≤ (mostActiveDay notes).count) := by
  refine ⟨by simp [dayOfWeek, dayNames], ?_, fun e _ => Nat.zero_le _, ?_⟩
  · rfl
  · have hshape : ∃ e es, dayOfWeek notes = e :: es := by
      cases hd : dayOfWeek notes with
      | nil => exact absurd (congrArg List.length hd) (by simp [dayOfWeek, dayNames])
      | cons e es => exact ⟨e, es, rfl⟩
    obtain ⟨e, es, hd⟩ := hshape
    have hma : mostActiveDay notes = pyMax es e := by
      unfold mostActiveDay
      rw [hd]
    obtain ⟨pre, post, heq, hlt, hle⟩ := pyMax_spec es e
    refine ⟨pre, post, ?_, ?_, ?_⟩
    · rw [hd, hma]; exact heq
    · intro x hx; rw [hma]; exact hlt x hx
    · intro x hx; rw [hma]; exact hle x (by rw [← hd]; exact hx)

/-- Witness for C8 at a concrete input. -/
theorem dayOfWeek_mostActive_witness :
    (dayOfWeek [demoNote 50]).length = 7 ∧
    (dayOfWeek [demoNote 50]).map (fun e => e.day) = dayNames := by
  exact ⟨(dayOfWeek_mostActive [demoNote 50]).1,
    (dayOfWeek_mostActive [demoNote 50]).2.1⟩

/-! ## Task progress bar (`generate_html`, lines 178-181) -/

/-- The 20-character ASCII progress bar:
`'=' * filled + '-' * (20 - filled)` with `filled = (completion * 20) // 100`.
(Python's `'-' * n` yields the empty string for negative `n`, which
truncated `Nat` subtraction models exactly.) -/
def progressBar (completion : Nat) : List Char :=
  List.replicate (completion * 20 / 100) '=' ++
    List.replicate (20 - completion * 20 / 100) '-'

theorem taskCompletion_le_100 (notes : List Note) :
    (calculateTaskStats notes).taskCompletion ≤ 100 := by
  have hct := completed_le_total notes
  simp only [calculateTaskStats]
  split
  · rename_i hpos
    calc countPatternTaskDone notes * 100 / countPatternTaskAny notes
        ≤ countPatternTaskAny notes * 100 / countPatternTaskAny notes :=
          Nat.div_le_div_right (Nat.mul_le_mul_right 100 hct)
      _ = 100 := by rw [Nat.mul_comm]; exact Nat.mul_div_cancel 100 hpos
  · exact Nat.zero_le 100

/-- C5: `task_completion` is `floor(tasks_completed*100/total_tasks)` when
`total_tasks > 0` and `0` when `total_tasks == 0`; the rendered progress
bar is exactly 20 characters long, exactly
`floor(task_completion*20/100)` of which are the fill character `'='`. -/
theorem taskStats_completion_bar (notes : List Note) :
    ((calculateTaskStats notes).totalTasks = 0 →
      (calculateTaskStats notes).taskCompletion = 0) ∧
    (0 < (calculateTaskStats notes).totalTasks →
      (calculateTaskStats notes).taskCompletion =
        (calculateTaskStats notes).tasksCompleted * 100 /
          (calculateTaskStats notes).totalTasks) ∧
    (progressBar (calculateTaskStats notes).taskCompletion).length = 20 ∧
    (progressBar (calculateTaskStats notes).taskCompletion).count '=' =
      (calculateTaskStats notes).taskCompletion * 20 / 100 := by
  have h100 := taskCompletion_le_100 notes
  have hfill : (calculateTaskStats notes).taskCompletion * 20 / 100 ≤ 20 := by
    calc (calculateTaskStats notes).taskCompletion * 20 / 100
        ≤ 100 * 20 / 100 := Nat.div_le_div_right (Nat.mul_le_mul_right 20 h100)
      _ = 20 := by norm_num
  refine ⟨?_, ?_, ?_, ?_⟩
  · intro h0
    simp only [calculateTaskStats] at h0 ⊢
    simp [h0]
  · intro hpos
    simp only [calculateTaskStats] at hpos ⊢
    rw [if_pos hpos]
  · simp only [progressBar, List.length_append, List.length_replicate]
    omega
  · have h1 : (List.replicate ((calculateTaskStats notes).taskCompletion * 20 / 100)
        '=').count '=' = (calculateTaskStats notes).taskCompletion * 20 / 100 := by
      simp
    have h2 : (List.replicate (20 - (calculateTaskStats notes).taskCompletion * 20 / 100)
        '-').count '=' = 0 := by
      simp [List.count_replicate]
    rw [progressBar, List.count_append, h1, h2]
    omega

/-- A 1-note set containing one completed and one unchecked task. -/
def demoTasks : List Note :=
  [{ words := 0, lines := 0, mtime := 0, content := ("- [x] a\n- [ ] b").toList }]

/-- Witness for C5 at a concrete note set (one completed task of two). -/
theorem taskStats_completion_bar_witness :
    0 < (calculateTaskStats demoTasks).totalTasks ∧
    (calculateTaskStats demoTasks).taskCompletion =
      (calculateTaskStats demoTasks).tasksCompleted * 100 /
        (calculateTaskStats demoTasks).totalTasks ∧
    (progressBar (calculateTaskStats demoTasks).taskCompletion).length = 20 := by
  refine ⟨by decide, (taskStats_completion_bar demoTasks).2.1 (by decide),
    (taskStats_completion_bar demoTasks).2.2.1⟩

/-- Witness-style concrete instance for C10. -/
theorem tasksUnchecked_nonneg_witness :
    0 ≤ (calculateTaskStats demoTasks).tasksUnchecked :=
  (tasksUnchecked_nonneg demoTasks).2

/-- Witness-style concrete instance for C6. -/
theorem lengthDistribution_partitions_witness :
    (lengthDistribution [demoNote 50, demoNote 6000]).sum =
      ([demoNote 50, demoNote 6000] : List Note).length :=
  (lengthDistribution_partitions [demoNote 50, demoNote 6000]).1

/-! ## Basic statistics (`calculate_basic_stats`) -/

/-- Python `//`: raises `ZeroDivisionError` on a zero divisor, otherwise
floor division. -/
def pyFloorDiv (a b : Nat) : Except PyErr Nat :=
  if b = 0 then .error .zeroDivisionError else .ok (a / b)

/-- The metric set of `calculate_basic_stats`.  `diskUsage` is the first
field of the `du -sh` output, an externally produced string. -/
structure BasicStats where
  totalNotes : Nat
  totalWords : Nat
  totalLines : Nat
  diskUsage : List Char
  avgWords : Nat
  avgLines : Nat
  totalVaults : Nat
  deriving DecidableEq, Repr

/-- `calculate_basic_stats`.  The note count, word total and line total
come from `find`/`wc` pipelines over the note set; `disk` (from `du -sh`)
and `vaults` (the top-level subdirectory count) are externally produced
inputs.  The function returns an `Option` value since its caller checks it
against `None`, but on success it always returns `some`; the average
computations divide by the note count unconditionally, so an empty note
set raises `ZeroDivisionError`. -/
def calculateBasicStats (notes : List Note) (disk : List Char) (vaults : Nat) :
    Except PyErr (Option BasicStats) :=
  let tn := notes.length
  let tw := (notes.map (fun n => n.words)).sum
  let tl := (notes.map (fun n => n.lines)).sum
  match pyFloorDiv tw tn with
  | .error e => .error e
  | .ok aw =>
    match pyFloorDiv tl tn with
    | .error e => .error e
    | .ok al =>
      .ok (some { totalNotes := tn, totalWords := tw, totalLines := tl,
                  diskUsage := disk, avgWords := aw, avgLines := al,
                  totalVaults := vaults })

/-- C2 (code bug): contrary to the claim, the average-words and
average-lines computations are not guarded: on an empty note set the
code divides by `total_notes == 0` and raises `ZeroDivisionError` instead
of reporting 0. -/
theorem calculateBasicStats_empty_divzero (disk : List Char) (vaults : Nat) :
    calculateBasicStats [] disk vaults = .error .zeroDivisionError := rfl

/-! ## String rendering helpers for `generate_html`

All values substituted into the template are built from the alphabets
below; the brace characters are written via their code points so that the
absence of `{` in every rendered value can be proved. -/

/-- The left-brace character `{` (code point 123). -/
def lbrace : Char := Char.ofNat 123

/-- The right-brace character `}` (code point 125). -/
def rbrace : Char := Char.ofNat 125

/-- The block character `█` used by the day-of-week bars. -/
def blockChar : Char := Char.ofNat 9608

/-- The decimal digit characters. -/
def digitChars : List Char := ("0123456789").toList

/-- The digit character of `d % 10`. -/
def digitChar (d : Nat) : Char := digitChars.getD (d % 10) '0'

/-- Fuel-driven decimal rendering (most significant digit first); the
fuel only makes the recursion structural, `n + 1` units always suffice. -/
def natDigitsGo : Nat → Nat → List Char
  | 0, _ => []
  | fuel + 1, n =>
    if n < 10 then [digitChar n]
    else natDigitsGo fuel (n / 10) ++ [digitChar (n % 10)]

/-- `str(n)` for a natural number. -/
def strOfNat (n : Nat) : List Char := natDigitsGo (n + 1) n

/-- `str(z)` for a Python integer. -/
def strOfInt (z : Int) : List Char :=
  if z < 0 then '-' :: strOfNat z.natAbs else strOfNat z.toNat

/-- Insert a comma after every third character of the reversed digit
string (fuel-driven; `r.length` units suffice). -/
def commaGroupGo : Nat → List Char → List Char
  | 0, r => r
  | fuel + 1, r =>
    if r.length ≤ 3 then r
    else r.take 3 ++ ',' :: commaGroupGo fuel (r.drop 3)

/-- The thousands-grouped rendering `f"{n:,}"`. -/
def commaFmt (n : Nat) : List Char :=
  (commaGroupGo (strOfNat n).length (strOfNat n).reverse).reverse

/-- Left-pad with zeros to width `w` (`strftime` zero padding). -/
def padZeros (w : Nat) (s : List Char) : List Char :=
  List.replicate (w - s.length) '0' ++ s

/-- The `%b` month abbreviations, January first. -/
def monthAbbrevs : List (List Char) :=
  [("Jan").toList, ("Feb").toList, ("Mar").toList, ("Apr").toList,
   ("May").toList, ("Jun").toList, ("Jul").toList, ("Aug").toList,
   ("Sep").toList, ("Oct").toList, ("Nov").toList, ("Dec").toList]

/-- `month_start.strftime('%b %Y')`. -/
def monthLabel (ym : Nat × Nat) : List Char :=
  monthAbbrevs.getD (ym.2 - 1) [] ++ [' '] ++ padZeros 4 (strOfNat ym.1)

/-- One calendar cell of the `{{MONTHLY_ACTIVITY}}` fragment. -/
def monthlyEntryHtml (e : MonthEntry) : List Char :=
  ("          <div class=\"calendar-month\">\n            <div class=\"month-label\">").toList ++
  monthLabel e.start ++
  ("</div>\n            <div class=\"month-value\">").toList ++
  strOfNat e.count ++
  ("</div>\n          </div>\n").toList

/-- The `{{MONTHLY_ACTIVITY}}` fragment: concatenation over the six
monthly entries. -/
def monthlyHtml (l : List MonthEntry) : List Char :=
  (l.map monthlyEntryHtml).flatten

/-- `max([d['count'] for d in ...]) or 1`. -/
def dowMax (l : List DowEntry) : Nat :=
  let m := (l.map (fun e => e.count)).foldr max 0
  if m = 0 then 1 else m

/-- `(count * 30) // dow_max if dow_max > 0 else 0`. -/
def dowBarLen (count dm : Nat) : Nat := if 0 < dm then count * 30 / dm else 0

/-- One line `f"{day}: {bar} {count}\n"` of the day-of-week bars. -/
def dowBarLine (dm : Nat) (e : DowEntry) : List Char :=
  e.day ++ (": ").toList ++ List.replicate (dowBarLen e.count dm) blockChar ++
    [' '] ++ strOfNat e.count ++ ['\n']

/-- Python `str.strip()` whitespace predicate (the characters occurring
here). -/
def isPySpace (c : Char) : Bool := c == ' ' || c == '\n' || c == '\t' || c == '\r'

/-- Python `str.strip()`. -/
def pyStrip (s : List Char) : List Char :=
  (((s.dropWhile isPySpace).reverse).dropWhile isPySpace).reverse

/-- The `{{DAY_OF_WEEK_BARS}}` value: all seven lines, stripped. -/
def dowBars (l : List DowEntry) : List Char :=
  pyStrip ((l.map (dowBarLine (dowMax l))).flatten)

/-- One `<li>` line of the `{{LENGTH_DISTRIBUTION}}` fragment. -/
def lengthLine (rc : List Char × Nat) : List Char :=
  ("          <li><span class=\"label\">").toList ++ rc.1 ++
  (" words</span> <span class=\"value\">").toList ++ strOfNat rc.2 ++
  (" notes</span></li>\n").toList

/-- The `{{LENGTH_DISTRIBUTION}}` fragment. -/
def lengthHtml (ld : List Nat) : List Char :=
  ((ranges.zip ld).map lengthLine).flatten

/-- `datetime.now().strftime('%d/%m/%Y')`. -/
def lastUpdated (now : Date) : List Char :=
  padZeros 2 (strOfNat now.day) ++ ['/'] ++ padZeros 2 (strOfNat now.month) ++
    ['/'] ++ padZeros 4 (strOfNat now.year)

/-- The most recent modification timestamp
(`find -printf '%T@' | sort -n | tail -1`). -/
def maxMtime (notes : List Note) : Nat :=
  (notes.map (fun n => n.mtime)).foldr max 0

/-- `days_since_last_edit`: whole days (floored, as `timedelta.days`)
between now and the newest note; 0 when there are no notes. -/
def daysSinceLastEdit (notes : List Note) (nowTs : Int) : Int :=
  match notes with
  | [] => 0
  | _ => Int.fdiv (nowTs - (maxMtime notes : Int)) 86400

/-! ## Template substitution (`str.replace`)

Python's `str.replace(old, new)` replaces every non-overlapping occurrence
of `old`, scanning left to right and resuming after the inserted
replacement text. -/

/-- Fuel-driven `str.replace` kernel; one unit of fuel per consumed
subject character suffices (a match consumes `pat.length ≥ 1`). -/
def replaceAllGo (pat rep : List Char) : Nat → List Char → List Char
  | _, [] => []
  | 0, s => s
  | fuel + 1, c :: rest =>
    if pat ≠ [] ∧ pat.isPrefixOf (c :: rest) then
      rep ++ replaceAllGo pat rep fuel ((c :: rest).drop pat.length)
    else c :: replaceAllGo pat rep fuel rest

/-- `s.replace(pat, rep)`. -/
def replaceAll (s pat rep : List Char) : List Char :=
  replaceAllGo pat rep s.length s

theorem replaceAllGo_fuel (pat rep : List Char) : ∀ (n fuel fuel' : Nat) (s : List Char),
    s.length ≤ n → s.length ≤ fuel → s.length ≤ fuel' →
    replaceAllGo pat rep fuel s = replaceAllGo pat rep fuel' s := by
  intro n
  induction n with
  | zero =>
    intro fuel fuel' s hn _ _
    have : s = [] := List.length_eq_zero.mp (by omega)
    subst this
    cases fuel <;> cases fuel' <;> rfl
  | succ n ih =>
    intro fuel fuel' s hn hf hf'
    cases s with
    | nil => cases fuel <;> cases fuel' <;> rfl
    | cons c rest =>
      simp only [List.length_cons] at hn hf hf'
      obtain ⟨f, rfl⟩ : ∃ f, fuel = f + 1 := ⟨fuel - 1, by omega⟩
      obtain ⟨f', rfl⟩ : ∃ f', fuel' = f' + 1 := ⟨fuel' - 1, by omega⟩
      show (if pat ≠ [] ∧ pat.isPrefixOf (c :: rest) then
          rep ++ replaceAllGo pat rep f ((c :: rest).drop pat.length)
        else c :: replaceAllGo pat rep f rest) =
        (if pat ≠ [] ∧ pat.isPrefixOf (c :: rest) then
          rep ++ replaceAllGo pat rep f' ((c :: rest).drop pat.length)
        else c :: replaceAllGo pat rep f' rest)
      by_cases hp : pat ≠ [] ∧ pat.isPrefixOf (c :: rest) = true
      · have hplen : 1 ≤ pat.length := by
          have := List.length_pos.mpr hp.1
          omega
        have hd : ((c :: rest).drop pat.length).length = rest.length + 1 - pat.length := by
          simp [List.length_drop]
        rw [if_pos hp, if_pos hp, ih f f' ((c :: rest).drop pat.length)
          (by omega) (by omega) (by omega)]
      · rw [if_neg hp, if_neg hp, ih f f' rest (by omega) (by omega) (by omega)]

theorem replaceAll_nil (pat rep : List Char) : replaceAll [] pat rep = [] := rfl

theorem replaceAll_cons (pat rep : List Char) (c : Char) (rest : List Char) :
    replaceAll (c :: rest) pat rep =
      if pat ≠ [] ∧ pat.isPrefixOf (c :: rest) then
        rep ++ replaceAll ((c :: rest).drop pat.length) pat rep
      else c :: replaceAll rest pat rep := by
  unfold replaceAll
  have h1 : replaceAllGo pat rep (c :: rest).length (c :: rest) =
      if pat ≠ [] ∧ pat.isPrefixOf (c :: rest) then
        rep ++ replaceAllGo pat rep rest.length ((c :: rest).drop pat.length)
      else c :: replaceAllGo pat rep rest.length rest := rfl
  rw [h1]
  by_cases hp : pat ≠ [] ∧ pat.isPrefixOf (c :: rest) = true
  · have hplen : 1 ≤ pat.length := by
      have := List.length_pos.mpr hp.1
      omega
    have hd : ((c :: rest).drop pat.length).length = rest.length + 1 - pat.length := by
      simp [List.length_drop]
    rw [if_pos hp, if_pos hp,
      replaceAllGo_fuel pat rep rest.length rest.length
        ((c :: rest).drop pat.length).length ((c :: rest).drop pat.length)
        (by omega) (by omega) (by omega)]
  · rw [if_neg hp, if_neg hp]

theorem replaceAll_match (pat rep t : List Char) (hp : pat ≠ []) :
    replaceAll (pat ++ t) pat rep = rep ++ replaceAll t pat rep := by
  obtain ⟨c, pat', rfl⟩ : ∃ c pat', pat = c :: pat' := by
    cases pat with
    | nil => exact absurd rfl hp
    | cons c pat' => exact ⟨c, pat', rfl⟩
  rw [List.cons_append, replaceAll_cons]
  rw [if_pos ⟨hp, List.isPrefixOf_iff_prefix.mpr
    (by rw [← List.cons_append]; exact List.prefix_append _ t)⟩]
  rw [← List.cons_append, List.drop_left]

theorem replaceAll_cons_nomatch (pat rep : List Char) (c : Char) (rest : List Char)
    (h : ¬ pat <+: (c :: rest)) :
    replaceAll (c :: rest) pat rep = c :: replaceAll rest pat rep := by
  rw [replaceAll_cons, if_neg]
  rintro ⟨-, hpre⟩
  exact h (List.isPrefixOf_iff_prefix.mp hpre)

theorem replaceAll_skip (pat rep : List Char) : ∀ (x t : List Char),
    (∀ i, i < x.length → ¬ pat <+: ((x ++ t).drop i)) →
    replaceAll (x ++ t) pat rep = x ++ replaceAll t pat rep := by
  intro x
  induction x with
  | nil => intro t _; simp
  | cons c x' ih =>
    intro t h
    have h0 : ¬ pat <+: (c :: (x' ++ t)) := by
      have := h 0 (by simp)
      simpa using this
    rw [List.cons_append, replaceAll_cons_nomatch pat rep c (x' ++ t) h0,
      ih t (by
        intro i hi
        have := h (i + 1) (by simp only [List.length_cons]; omega)
        simpa [List.cons_append] using this)]
    rfl

/-! ## Placeholder tokens and well-formed templates -/

/-- The placeholder token of a name: the `\x7b\x7b` braces, the name, the
`\x7d\x7d` braces. -/
def mkTok (nm : List Char) : List Char :=
  lbrace :: lbrace :: (nm ++ [rbrace, rbrace])

/-- A well-formed placeholder name: nonempty and brace-free. -/
def SafeName (nm : List Char) : Prop :=
  nm ≠ [] ∧ ∀ c ∈ nm, c ≠ lbrace ∧ c ≠ rbrace

instance (nm : List Char) : Decidable (SafeName nm) := by
  unfold SafeName; infer_instance

theorem lbrace_ne_rbrace : lbrace ≠ rbrace := by decide

theorem name_prefix_eq : ∀ (A B t : List Char), (∀ c ∈ A, c ≠ rbrace) →
    (∀ c ∈ B, c ≠ rbrace) →
    (A ++ [rbrace, rbrace]) <+: (B ++ rbrace :: rbrace :: t) → A = B := by
  intro A
  induction A with
  | nil =>
    intro B t _ hB hpre
    cases B with
    | nil => rfl
    | cons b B' =>
      exfalso
      simp only [List.nil_append, List.cons_append] at hpre
      have h1 := (List.cons_prefix_cons.mp hpre).1
      exact hB b (List.mem_cons_self _ _) h1.symm
  | cons a A' ih =>
    intro B t hA hB hpre
    cases B with
    | nil =>
      exfalso
      simp only [List.cons_append, List.nil_append] at hpre
      have h1 := (List.cons_prefix_cons.mp hpre).1
      exact hA a (List.mem_cons_self _ _) h1
    | cons b B' =>
      simp only [List.cons_append] at hpre
      have h1 := List.cons_prefix_cons.mp hpre
      have h2 := ih B' t (fun c hc => hA c (List.mem_cons_of_mem _ hc))
        (fun c hc => hB c (List.mem_cons_of_mem _ hc)) h1.2
      rw [h1.1, h2]

theorem tok_not_prefix_inner (A B : List Char) (hA : SafeName A) (hB : SafeName B)
    (hAB : A ≠ B) :
    ∀ i, i < (mkTok B).length → ∀ t, ¬ (mkTok A) <+: ((mkTok B).drop i ++ t) := by
  intro i hi t hpre
  match i with
  | 0 =>
    apply hAB
    simp only [List.drop_zero, mkTok, List.cons_append, List.append_assoc,
      List.cons_append] at hpre
    have h1 := List.cons_prefix_cons.mp hpre
    have h2 := List.cons_prefix_cons.mp h1.2
    exact name_prefix_eq A B t (fun c hc => (hA.2 c hc).2)
      (fun c hc => (hB.2 c hc).2) (by simpa using h2.2)
  | 1 =>
    obtain ⟨b, B', rfl⟩ : ∃ b B', B = b :: B' := by
      cases B with
      | nil => exact absurd rfl hB.1
      | cons b B' => exact ⟨b, B', rfl⟩
    simp only [mkTok, List.drop_succ_cons, List.drop_zero, List.cons_append] at hpre
    have h1 := List.cons_prefix_cons.mp hpre
    have h2 := List.cons_prefix_cons.mp h1.2
    exact (hB.2 b (List.mem_cons_self _ _)).1 h2.1.symm
  | i + 2 =>
    have hilen : i < (B ++ [rbrace, rbrace]).length := by
      simp only [mkTok, List.length_cons, List.length_append] at hi
      simp only [List.length_append]
      simp at hi ⊢
      omega
    have hdrop : (mkTok B).drop (i + 2) = (B ++ [rbrace, rbrace]).drop i := by
      simp [mkTok]
    rw [hdrop, List.drop_eq_getElem_cons hilen] at hpre
    have hmem : (B ++ [rbrace, rbrace])[i] ∈ B ++ [rbrace, rbrace] :=
      List.getElem_mem hilen
    have hne : (B ++ [rbrace, rbrace])[i] ≠ lbrace := by
      rcases List.mem_append.mp hmem with h | h
      · exact (hB.2 _ h).1
      · intro hc
        simp at h
        rw [hc] at h
        exact lbrace_ne_rbrace h
    simp only [mkTok, List.cons_append] at hpre
    have h1 := List.cons_prefix_cons.mp hpre
    exact hne h1.1.symm

/-- One syntactic piece of a well-formed template: a literal non-brace
character or a placeholder from the catalog (an index into the name
list). -/
inductive Piece where
  | lit (c : Char)
  | tok (j : Nat)
  deriving DecidableEq, Repr

/-- Is a piece well-formed with respect to a catalog? -/
def pieceOK (names : List (List Char)) : Piece → Bool
  | .lit c => decide (c ≠ lbrace)
  | .tok j => decide (j < names.length)

/-- A well-formed template: every literal is brace-free and every
placeholder index is in range. -/
def WFP (names : List (List Char)) (ps : List Piece) : Prop :=
  ∀ p ∈ ps, pieceOK names p = true

instance (names : List (List Char)) (ps : List Piece) : Decidable (WFP names ps) := by
  unfold WFP; infer_instance

/-- The template text denoted by a piece list. -/
def flattenP (names : List (List Char)) : List Piece → List Char
  | [] => []
  | .lit c :: ps => c :: flattenP names ps
  | .tok j :: ps => mkTok (names.getD j []) ++ flattenP names ps

/-- The effect of one `str.replace` pass on the piece representation:
placeholders of the replaced name become literal text, everything else is
kept. -/
def substP (names : List (List Char)) (nm v : List Char) : List Piece → List Piece
  | [] => []
  | .lit c :: ps => .lit c :: substP names nm v ps
  | .tok j :: ps =>
    (if names.getD j [] = nm then v.map Piece.lit else [.tok j]) ++
      substP names nm v ps

theorem flattenP_append (names : List (List Char)) : ∀ ps qs,
    flattenP names (ps ++ qs) = flattenP names ps ++ flattenP names qs := by
  intro ps
  induction ps with
  | nil => intro qs; rfl
  | cons p ps ih =>
    intro qs
    cases p with
    | lit c => simp [flattenP, ih]
    | tok j => simp [flattenP, ih]

theorem flattenP_lits (names : List (List Char)) : ∀ v : List Char,
    flattenP names (v.map Piece.lit) = v := by
  intro v
  induction v with
  | nil => rfl
  | cons c v ih => simp [flattenP, ih]

theorem replaceAll_flattenP (names : List (List Char))
    (hnames : ∀ nm ∈ names, SafeName nm) (nm : List Char) (hnm : SafeName nm)
    (v : List Char) :
    ∀ ps, WFP names ps →
      replaceAll (flattenP names ps) (mkTok nm) v =
        flattenP names (substP names nm v ps) := by
  intro ps
  induction ps with
  | nil => intro _; rfl
  | cons p ps ih =>
    intro hwf
    have hwfp := hwf p (List.mem_cons_self _ _)
    have hwf' : WFP names ps := fun q hq => hwf q (List.mem_cons_of_mem _ hq)
    cases p with
    | lit c =>
      have hc : c ≠ lbrace := by simpa [pieceOK] using hwfp
      show replaceAll (c :: flattenP names ps) (mkTok nm) v =
        c :: flattenP names (substP names nm v ps)
      rw [replaceAll_cons_nomatch _ _ _ _ (by
        intro hpre
        have h1 := (List.cons_prefix_cons.mp (by simpa [mkTok] using hpre)).1
        exact hc h1.symm), ih hwf']
    | tok j =>
      have hj : j < names.length := by simpa [pieceOK] using hwfp
      show replaceAll (mkTok (names.getD j []) ++ flattenP names ps) (mkTok nm) v =
        flattenP names ((if names.getD j [] = nm then v.map Piece.lit
          else [Piece.tok j]) ++ substP names nm v ps)
      by_cases heq : names.getD j [] = nm
      · rw [heq, replaceAll_match _ _ _ (by simp [mkTok]), ih hwf']
        simp [flattenP_append, flattenP_lits]
      · have hmemB : names.getD j [] ∈ names := by
          rw [List.getD_eq_getElem _ _ hj]
          exact List.getElem_mem hj
        have hBsafe : SafeName (names.getD j []) := hnames _ hmemB
        rw [replaceAll_skip _ _ _ _ (by
          intro i hi hpre
          have hdrop : (mkTok (names.getD j []) ++ flattenP names ps).drop i =
              (mkTok (names.getD j [])).drop i ++ flattenP names ps := by
            rw [List.drop_append_eq_append_drop]
            have : i - (mkTok (names.getD j [])).length = 0 := by omega
            rw [this, List.drop_zero]
          rw [hdrop] at hpre
          exact tok_not_prefix_inner nm (names.getD j []) hnm hBsafe
            (fun h => heq h.symm) i hi (flattenP names ps) hpre), ih hwf']
        rw [if_neg heq, flattenP_append]
        simp [flattenP]

theorem tok_mem_substP (names : List (List Char)) (nm v : List Char) :
    ∀ ps (j : Nat), Piece.tok j ∈ substP names nm v ps →
      Piece.tok j ∈ ps ∧ names.getD j [] ≠ nm := by
  intro ps
  induction ps with
  | nil => intro j h; simp [substP] at h
  | cons p ps ih =>
    intro j h
    cases p with
    | lit c =>
      simp only [substP, List.mem_cons] at h
      rcases h with h | h
      · exact absurd h (by simp)
      · have := ih j h
        exact ⟨List.mem_cons_of_mem _ this.1, this.2⟩
    | tok j' =>
      simp only [substP, List.mem_append] at h
      rcases h with h | h
      · by_cases hbr : names.getD j' [] = nm
        · rw [if_pos hbr] at h
          obtain ⟨c, -, hc⟩ := List.mem_map.mp h
          exact absurd hc.symm (by simp)
        · rw [if_neg hbr] at h
          have : Piece.tok j = Piece.tok j' := by simpa using h
          have hjj : j = j' := by
            injection this
          subst hjj
          exact ⟨List.mem_cons_self _ _, hbr⟩
      · have := ih j h
        exact ⟨List.mem_cons_of_mem _ this.1, this.2⟩

theorem WFP_substP (names : List (List Char)) (nm v : List Char)
    (hv : ∀ c ∈ v, c ≠ lbrace) :
    ∀ ps, WFP names ps → WFP names (substP names nm v ps) := by
  intro ps
  induction ps with
  | nil => intro _; intro p hp; simp [substP] at hp
  | cons p ps ih =>
    intro hwf
    have hwfp := hwf p (List.mem_cons_self _ _)
    have hwf' := ih (fun q hq => hwf q (List.mem_cons_of_mem _ hq))
    cases p with
    | lit c =>
      intro q hq
      rcases List.mem_cons.mp hq with rfl | hq'
      · exact hwfp
      · exact hwf' q hq'
    | tok j =>
      intro q hq
      simp only [substP, List.mem_append] at hq
      rcases hq with hq | hq
      · by_cases hbr : names.getD j [] = nm
        · rw [if_pos hbr] at hq
          obtain ⟨c, hc, rfl⟩ := List.mem_map.mp hq
          simpa [pieceOK] using hv c hc
        · rw [if_neg hbr] at hq
          have : q = Piece.tok j := by simpa using hq
          subst this
          exact hwfp
      · exact hwf' q hq

/-- The sequence of `html.replace(...)` passes: fold `str.replace` over a
list of (placeholder name, value) pairs. -/
def renderPasses (tpl : List Char) (nvs : List (List Char × List Char)) : List Char :=
  nvs.foldl (fun h nv => replaceAll h (mkTok nv.1) nv.2) tpl

theorem renderPasses_flattenP (names : List (List Char))
    (hnames : ∀ nm ∈ names, SafeName nm) :
    ∀ (nvs : List (List Char × List Char)) (ps : List Piece),
      WFP names ps →
      (∀ nv ∈ nvs, nv.1 ∈ names ∧ ∀ c ∈ nv.2, c ≠ lbrace) →
      (∀ j, Piece.tok j ∈ ps → names.getD j [] ∈ nvs.map Prod.fst) →
      ∃ ps', renderPasses (flattenP names ps) nvs = flattenP names ps' ∧
        WFP names ps' ∧ ∀ j, Piece.tok j ∉ ps' := by
  intro nvs
  induction nvs with
  | nil =>
    intro ps hwf _ htok
    exact ⟨ps, rfl, hwf, fun j hj => by simpa using htok j hj⟩
  | cons nv nvs ih =>
    intro ps hwf hvals htok
    have hnv := hvals nv (List.mem_cons_self _ _)
    have hnm : SafeName nv.1 := hnames _ hnv.1
    have hstep : renderPasses (flattenP names ps) (nv :: nvs) =
        renderPasses (replaceAll (flattenP names ps) (mkTok nv.1) nv.2) nvs := rfl
    rw [hstep, replaceAll_flattenP names hnames nv.1 hnm nv.2 ps hwf]
    apply ih (substP names nv.1 nv.2 ps)
      (WFP_substP names nv.1 nv.2 hnv.2 ps hwf)
      (fun q hq => hvals q (List.mem_cons_of_mem _ hq))
    intro j hj
    obtain ⟨hmem, hne⟩ := tok_mem_substP names nv.1 nv.2 ps j hj
    have := htok j hmem
    simp only [List.map_cons, List.mem_cons] at this
    rcases this with h | h
    · exact absurd h hne
    · exact h

theorem flattenP_no_lbrace (names : List (List Char)) :
    ∀ ps, WFP names ps → (∀ j, Piece.tok j ∉ ps) →
      ∀ c ∈ flattenP names ps, c ≠ lbrace := by
  intro ps
  induction ps with
  | nil => intro _ _ c hc; simp [flattenP] at hc
  | cons p ps ih =>
    intro hwf htok
    cases p with
    | lit c0 =>
      intro c hc
      rcases List.mem_cons.mp hc with rfl | hc'
      · simpa [pieceOK] using hwf _ (List.mem_cons_self _ _)
      · exact ih (fun q hq => hwf q (List.mem_cons_of_mem _ hq))
          (fun j hj => htok j (List.mem_cons_of_mem _ hj)) c hc'
    | tok j => exact absurd (List.mem_cons_self _ _) (htok j)

theorem no_lbrace_no_tok (s : List Char) (h : ∀ c ∈ s, c ≠ lbrace)
    (nm : List Char) : ¬ (mkTok nm <:+: s) := by
  intro hinf
  obtain ⟨u, w, he⟩ := hinf
  apply h lbrace ?_ rfl
  rw [← he]
  apply List.mem_append.mpr
  exact Or.inl (List.mem_append.mpr (Or.inr (by simp [mkTok])))

/-! ## Every rendered value is free of the left brace -/

/-- A string containing no left brace can never introduce a placeholder. -/
def LFree (s : List Char) : Prop := ∀ c ∈ s, c ≠ lbrace

instance (s : List Char) : Decidable (LFree s) := by
  unfold LFree; infer_instance

theorem lfree_append {a b : List Char} (ha : LFree a) (hb : LFree b) :
    LFree (a ++ b) := by
  intro c hc
  rcases List.mem_append.mp hc with h | h
  · exact ha c h
  · exact hb c h

theorem lfree_reverse {a : List Char} (ha : LFree a) : LFree a.reverse := by
  intro c hc
  exact ha c (List.mem_reverse.mp hc)

theorem lfree_replicate {c0 : Char} (h : c0 ≠ lbrace) (n : Nat) :
    LFree (List.replicate n c0) := by
  intro c hc
  rw [List.eq_of_mem_replicate hc]
  exact h

theorem lfree_flatten {L : List (List Char)} (h : ∀ x ∈ L, LFree x) :
    LFree L.flatten := by
  intro c hc
  obtain ⟨x, hx, hcx⟩ := List.mem_flatten.mp hc
  exact h x hx c hcx

theorem lfree_getD {l : List (List Char)} {d : List Char} (hl : ∀ x ∈ l, LFree x)
    (hd : LFree d) (i : Nat) : LFree (l.getD i d) := by
  by_cases hi : i < l.length
  · rw [List.getD_eq_getElem _ _ hi]
    exact hl _ (List.getElem_mem hi)
  · rw [List.getD_eq_default _ _ (by omega)]
    exact hd

theorem lfree_digitChar (d : Nat) : digitChar d ≠ lbrace := by
  have hmem : digitChar d ∈ digitChars := by
    have h10 : d % 10 < digitChars.length := by
      have := Nat.mod_lt d (show 0 < 10 by norm_num)
      simpa [digitChars] using this
    rw [digitChar, List.getD_eq_getElem _ _ h10]
    exact List.getElem_mem h10
  have hall : ∀ c ∈ digitChars, c ≠ lbrace := by decide
  exact hall _ hmem

theorem lfree_natDigitsGo : ∀ (fuel n : Nat), LFree (natDigitsGo fuel n) := by
  intro fuel
  induction fuel with
  | zero => intro n c hc; simp [natDigitsGo] at hc
  | succ fuel ih =>
    intro n
    show LFree (if n < 10 then [digitChar n]
      else natDigitsGo fuel (n / 10) ++ [digitChar (n % 10)])
    split
    · intro c hc
      rw [List.mem_singleton.mp hc]
      exact lfree_digitChar n
    · exact lfree_append (ih (n / 10)) (by
        intro c hc
        rw [List.mem_singleton.mp hc]
        exact lfree_digitChar (n % 10))

theorem lfree_strOfNat (n : Nat) : LFree (strOfNat n) := lfree_natDigitsGo _ n

theorem lfree_strOfInt (z : Int) : LFree (strOfInt z) := by
  unfold strOfInt
  split
  · intro c hc
    rcases List.mem_cons.mp hc with rfl | hc'
    · decide
    · exact lfree_strOfNat _ c hc'
  · exact lfree_strOfNat _

theorem lfree_take {a : List Char} (ha : LFree a) (n : Nat) : LFree (a.take n) :=
  fun c hc => ha c (List.take_subset n a hc)

theorem lfree_drop {a : List Char} (ha : LFree a) (n : Nat) : LFree (a.drop n) :=
  fun c hc => ha c (List.drop_subset n a hc)

theorem lfree_commaGroupGo : ∀ (fuel : Nat) (r : List Char), LFree r →
    LFree (commaGroupGo fuel r) := by
  intro fuel
  induction fuel with
  | zero => intro r hr; exact hr
  | succ fuel ih =>
    intro r hr
    show LFree (if r.length ≤ 3 then r else r.take 3 ++ ',' :: commaGroupGo fuel (r.drop 3))
    split
    · exact hr
    · apply lfree_append (lfree_take hr 3)
      intro c hc
      rcases List.mem_cons.mp hc with rfl | hc'
      · decide
      · exact ih (r.drop 3) (lfree_drop hr 3) c hc'

theorem lfree_commaFmt (n : Nat) : LFree (commaFmt n) :=
  lfree_reverse (lfree_commaGroupGo _ _ (lfree_reverse (lfree_strOfNat n)))

theorem lfree_padZeros (w : Nat) {s : List Char} (hs : LFree s) :
    LFree (padZeros w s) :=
  lfree_append (lfree_replicate (by decide) _) hs

theorem lfree_monthLabel (ym : Nat × Nat) : LFree (monthLabel ym) := by
  unfold monthLabel
  apply lfree_append (lfree_append (lfree_getD (by decide) (by decide) _) (by decide))
  exact lfree_padZeros 4 (lfree_strOfNat _)

theorem lfree_monthlyEntryHtml (e : MonthEntry) : LFree (monthlyEntryHtml e) := by
  unfold monthlyEntryHtml
  exact lfree_append (lfree_append (lfree_append (lfree_append (by decide)
    (lfree_monthLabel _)) (by decide)) (lfree_strOfNat _)) (by decide)

theorem lfree_monthlyHtml (l : List MonthEntry) : LFree (monthlyHtml l) := by
  apply lfree_flatten
  intro x hx
  obtain ⟨e, -, rfl⟩ := List.mem_map.mp hx
  exact lfree_monthlyEntryHtml e

theorem lfree_dropWhile {a : List Char} (ha : LFree a) (p : Char → Bool) :
    LFree (a.dropWhile p) :=
  fun c hc => ha c ((List.dropWhile_sublist p).subset hc)

theorem lfree_pyStrip {a : List Char} (ha : LFree a) : LFree (pyStrip a) :=
  lfree_reverse (lfree_dropWhile (lfree_reverse (lfree_dropWhile ha _)) _)

theorem dayOfWeek_day_mem (notes : List Note) :
    ∀ e ∈ dayOfWeek notes, e.day ∈ dayNames := by
  intro e he
  obtain ⟨d, hd, rfl⟩ := List.mem_map.mp he
  exact hd

theorem lfree_dowBarLine (dm : Nat) (e : DowEntry) (he : LFree e.day) :
    LFree (dowBarLine dm e) := by
  unfold dowBarLine
  exact lfree_append (lfree_append (lfree_append (lfree_append (lfree_append he
    (by decide)) (lfree_replicate (by decide) _)) (by decide)) (lfree_strOfNat _))
    (by decide)

theorem lfree_dowBars (notes : List Note) : LFree (dowBars (dayOfWeek notes)) := by
  apply lfree_pyStrip
  apply lfree_flatten
  intro x hx
  obtain ⟨e, he, rfl⟩ := List.mem_map.mp hx
  apply lfree_dowBarLine
  have hmem := dayOfWeek_day_mem notes e he
  have hall : ∀ d ∈ dayNames, LFree d := by decide
  exact hall _ hmem

theorem mostActiveDay_mem (notes : List Note) :
    mostActiveDay notes ∈ dayOfWeek notes := by
  cases hd : dayOfWeek notes with
  | nil => exact absurd (congrArg List.length hd) (by simp [dayOfWeek, dayNames])
  | cons e es =>
    have hma : mostActiveDay notes = pyMax es e := by
      unfold mostActiveDay
      rw [hd]
    obtain ⟨pre, post, heq, -, -⟩ := pyMax_spec es e
    rw [hma, heq]
    exact List.mem_append.mpr (Or.inr (List.mem_cons_self _ _))

theorem lfree_mostActiveDay (notes : List Note) :
    LFree (mostActiveDay notes).day := by
  have hall : ∀ d ∈ dayNames, LFree d := by decide
  exact hall _ (dayOfWeek_day_mem notes _ (mostActiveDay_mem notes))

theorem lfree_lengthLine (rc : List Char × Nat) (h : LFree rc.1) :
    LFree (lengthLine rc) := by
  unfold lengthLine
  exact lfree_append (lfree_append (lfree_append (lfree_append (by decide) h)
    (by decide)) (lfree_strOfNat _)) (by decide)

theorem lfree_lengthHtml (ld : List Nat) : LFree (lengthHtml ld) := by
  apply lfree_flatten
  intro x hx
  obtain ⟨rc, hrc, rfl⟩ := List.mem_map.mp hx
  apply lfree_lengthLine
  have := (List.of_mem_zip hrc).1
  have hall : ∀ r ∈ ranges, LFree r := by decide
  exact hall _ this

theorem lfree_lastUpdated (now : Date) : LFree (lastUpdated now) := by
  unfold lastUpdated
  exact lfree_append (lfree_append (lfree_append (lfree_append
    (lfree_padZeros 2 (lfree_strOfNat _)) (by decide))
    (lfree_padZeros 2 (lfree_strOfNat _))) (by decide))
    (lfree_padZeros 4 (lfree_strOfNat _))

theorem lfree_rangesGetD (i : Nat) : LFree (ranges.getD i []) :=
  lfree_getD (by decide) (by decide) i

theorem lfree_progressBar (completion : Nat) : LFree (progressBar completion) := by
  unfold progressBar
  exact lfree_append (lfree_replicate (by decide) _) (lfree_replicate (by decide) _)

/-! ## `generate_html` -/

/-- The placeholder catalog, in the order the `html.replace` calls are
made; the `FILE_SIZE` placeholder is handled by the final pass after the
first write. -/
def passNames : List (List Char) :=
  [("TOTAL_NOTES").toList, ("TOTAL_WORDS").toList, ("TOTAL_LINES").toList,
   ("DISK_USAGE").toList, ("AVG_WORDS").toList, ("AVG_LINES").toList,
   ("TOTAL_VAULTS").toList, ("TOTAL_TASKS").toList, ("TASKS_COMPLETED").toList,
   ("TASKS_UNCHECKED").toList, ("TASK_COMPLETION").toList,
   ("TASK_PROGRESS_BAR").toList, ("INTERNAL_LINKS").toList,
   ("EXTERNAL_URLS").toList, ("IMAGES").toList, ("CODE_BLOCKS").toList,
   ("MATH_EXPR").toList, ("H1_COUNT").toList, ("H2_COUNT").toList,
   ("H3_COUNT").toList, ("H4_COUNT").toList, ("LISTS").toList,
   ("BLOCKQUOTES").toList, ("TABLES").toList, ("HR_COUNT").toList,
   ("DAYS_SINCE_LAST_EDIT").toList, ("MONTHLY_ACTIVITY").toList,
   ("DAY_OF_WEEK_BARS").toList, ("MOST_ACTIVE_DAY").toList,
   ("MOST_ACTIVE_DAY_COUNT").toList, ("LENGTH_DISTRIBUTION").toList,
   ("MOST_COMMON_BRACKET").toList, ("MOST_COMMON_COUNT").toList,
   ("LONGEST_BRACKET").toList, ("LONGEST_COUNT").toList,
   ("SHORTEST_BRACKET").toList, ("SHORTEST_COUNT").toList,
   ("LAST_UPDATED").toList, ("FILE_SIZE").toList]

/-- The pattern counts of `calculate_content_stats` and
`calculate_markdown_stats`.  These are produced by shell-delegated text
scans that the spec treats as external collaborators; only the task
patterns are embedded concretely (claims C5/C10 depend on their
relationship), so the remaining counts enter the model as inputs. -/
structure ExternalCounts where
  internalLinks : Nat
  externalUrls : Nat
  images : Nat
  codeBlocks : Nat
  mathExpr : Nat
  h1 : Nat
  h2 : Nat
  h3 : Nat
  h4 : Nat
  lists : Nat
  blockquotes : Nat
  tables : Nat
  hr : Nat
  deriving DecidableEq, Repr

/-- The observable outcome of a run of `generate_html`: the document
written to the output path (if any) and the final console message. -/
structure RunResult where
  written : Option (List Char)
  message : List Char
  deriving DecidableEq, Repr

/-- The 38 main substitution passes of `generate_html`, in source order:
placeholder name and the rendered value. -/
def mainSubs (basic : BasicStats) (tasks : TaskStats) (ext : ExternalCounts)
    (notes : List Note) (now : Date) (nowTs : Int) (ld : List Nat) :
    List (List Char × List Char) :=
  [(("TOTAL_NOTES").toList, strOfNat basic.totalNotes),
   (("TOTAL_WORDS").toList, commaFmt basic.totalWords),
   (("TOTAL_LINES").toList, commaFmt basic.totalLines),
   (("DISK_USAGE").toList, basic.diskUsage),
   (("AVG_WORDS").toList, strOfNat basic.avgWords),
   (("AVG_LINES").toList, strOfNat basic.avgLines),
   (("TOTAL_VAULTS").toList, strOfNat basic.totalVaults),
   (("TOTAL_TASKS").toList, strOfNat tasks.totalTasks),
   (("TASKS_COMPLETED").toList, strOfNat tasks.tasksCompleted),
   (("TASKS_UNCHECKED").toList, strOfInt tasks.tasksUnchecked),
   (("TASK_COMPLETION").toList, strOfNat tasks.taskCompletion),
   (("TASK_PROGRESS_BAR").toList, progressBar tasks.taskCompletion),
   (("INTERNAL_LINKS").toList, strOfNat ext.internalLinks),
   (("EXTERNAL_URLS").toList, strOfNat ext.externalUrls),
   (("IMAGES").toList, strOfNat ext.images),
   (("CODE_BLOCKS").toList, strOfNat ext.codeBlocks),
   (("MATH_EXPR").toList, strOfNat ext.mathExpr),
   (("H1_COUNT").toList, strOfNat ext.h1),
   (("H2_COUNT").toList, strOfNat ext.h2),
   (("H3_COUNT").toList, strOfNat ext.h3),
   (("H4_COUNT").toList, strOfNat ext.h4),
   (("LISTS").toList, strOfNat ext.lists),
   (("BLOCKQUOTES").toList, strOfNat ext.blockquotes),
   (("TABLES").toList, strOfNat ext.tables),
   (("HR_COUNT").toList, strOfNat ext.hr),
   (("DAYS_SINCE_LAST_EDIT").toList, strOfInt (daysSinceLastEdit notes nowTs)),
   (("MONTHLY_ACTIVITY").toList, monthlyHtml (monthlyActivity notes now)),
   (("DAY_OF_WEEK_BARS").toList, dowBars (dayOfWeek notes)),
   (("MOST_ACTIVE_DAY").toList, (mostActiveDay notes).day),
   (("MOST_ACTIVE_DAY_COUNT").toList, strOfNat (mostActiveDay notes).count),
   (("LENGTH_DISTRIBUTION").toList, lengthHtml ld),
   (("MOST_COMMON_BRACKET").toList, ranges.getD (mostCommonIdx ld) []),
   (("MOST_COMMON_COUNT").toList, strOfNat (ld.getD (mostCommonIdx ld) 0)),
   (("LONGEST_BRACKET").toList, ranges.getD (longestIdx ld) []),
   (("LONGEST_COUNT").toList, strOfNat (ld.getD (longestIdx ld) 0)),
   (("SHORTEST_BRACKET").toList, ranges.getD (shortestIdx ld) []),
   (("SHORTEST_COUNT").toList, strOfNat (ld.getD (shortestIdx ld) 0)),
   (("LAST_UPDATED").toList, lastUpdated now)]

/-- `generate_html`: compute all aggregations, substitute the placeholder
catalog into the template, write the result, then patch `{{FILE_SIZE}}`
(whose value, the written file's size as reported by `ls -lh`, is an
external input) in a second write.  On an empty note set
`calculate_basic_stats` raises before anything is written, and the
`if basic is None` diagnostic branch survives in the model exactly as in
the source: it is dead, because on success the stats are always `some`. -/
def generateHtml (notes : List Note) (tpl : List Char) (now : Date) (nowTs : Int)
    (disk : List Char) (vaults : Nat) (ext : ExternalCounts)
    (fileSize : List Char) : Except PyErr RunResult :=
  match calculateBasicStats notes disk vaults with
  | .error e => .error e
  | .ok none => .ok { written := none, message := ("No markdown files found").toList }
  | .ok (some basic) =>
    let tasks := calculateTaskStats notes
    let ld := lengthDistribution notes
    let html1 := renderPasses tpl (mainSubs basic tasks ext notes now nowTs ld)
    let html2 := replaceAll html1 (mkTok (("FILE_SIZE").toList)) fileSize
    .ok { written := some html2,
          message := ("Generated /var/www/website/notes.html").toList }

/-- C1 (code bug): on an empty note set the run does abort before writing
output, but not through the diagnostic branch — `calculate_basic_stats`
raises `ZeroDivisionError` first, so no "No markdown files found" message
is ever reported and the process dies with a traceback instead of a clean
exit. -/
theorem generateHtml_empty_aborts (tpl : List Char) (now : Date) (nowTs : Int)
    (disk : List Char) (vaults : Nat) (ext : ExternalCounts)
    (fileSize : List Char) :
    generateHtml [] tpl now nowTs disk vaults ext fileSize =
      .error .zeroDivisionError := rfl

set_option maxHeartbeats 1600000 in
theorem mainSubs_mem_names (basic : BasicStats) (tasks : TaskStats)
    (ext : ExternalCounts) (notes : List Note) (now : Date) (nowTs : Int)
    (ld : List Nat) :
    (mainSubs basic tasks ext notes now nowTs ld).map Prod.fst ++
      [("FILE_SIZE").toList] = passNames := rfl

set_option maxHeartbeats 1600000 in
theorem mainSubs_lfree (basic : BasicStats) (tasks : TaskStats)
    (ext : ExternalCounts) (notes : List Note) (now : Date) (nowTs : Int)
    (ld : List Nat) (hd : LFree basic.diskUsage) :
    ∀ nv ∈ mainSubs basic tasks ext notes now nowTs ld, LFree nv.2 := by
  simp only [mainSubs, List.forall_mem_cons]
  exact ⟨lfree_strOfNat _, lfree_commaFmt _, lfree_commaFmt _, hd,
    lfree_strOfNat _, lfree_strOfNat _, lfree_strOfNat _, lfree_strOfNat _,
    lfree_strOfNat _, lfree_strOfInt _, lfree_strOfNat _, lfree_progressBar _,
    lfree_strOfNat _, lfree_strOfNat _, lfree_strOfNat _, lfree_strOfNat _,
    lfree_strOfNat _, lfree_strOfNat _, lfree_strOfNat _, lfree_strOfNat _,
    lfree_strOfNat _, lfree_strOfNat _, lfree_strOfNat _, lfree_strOfNat _,
    lfree_strOfNat _, lfree_strOfInt _, lfree_monthlyHtml _,
    lfree_dowBars notes, lfree_mostActiveDay notes, lfree_strOfNat _,
    lfree_lengthHtml _, lfree_rangesGetD _, lfree_strOfNat _,
    lfree_rangesGetD _, lfree_strOfNat _, lfree_rangesGetD _,
    lfree_strOfNat _, lfree_lastUpdated now,
    fun x hx => absurd hx (List.not_mem_nil x)⟩

theorem calculateBasicStats_not_none (notes : List Note) (disk : List Char)
    (vaults : Nat) : calculateBasicStats notes disk vaults ≠ .ok none := by
  intro h
  simp only [calculateBasicStats] at h
  split at h
  · simp at h
  · split at h
    · simp at h
    · simp at h

theorem calculateBasicStats_disk (notes : List Note) (disk : List Char)
    (vaults : Nat) (b : BasicStats)
    (h : calculateBasicStats notes disk vaults = .ok (some b)) :
    b.diskUsage = disk := by
  simp only [calculateBasicStats] at h
  split at h
  · simp at h
  · split at h
    · simp at h
    · simp only [Except.ok.injEq, Option.some.injEq] at h
      rw [← h]

/-- C9 (amended): for any note set and run inputs, if the template is
well-formed — a concatenation of literal brace-free text and catalog
placeholders — and the two externally produced string values (disk usage
and file size) contain no left brace, then the written output contains no
placeholder token of the form `\x7b\x7bNAME\x7d\x7d` at all: every
placeholder present in the template was fully substituted (including
`FILE_SIZE` in the final pass) and no pass reintroduced one. -/
theorem render_amended (notes : List Note) (now : Date) (nowTs : Int)
    (disk : List Char) (vaults : Nat) (ext : ExternalCounts) (fileSize : List Char)
    (ps : List Piece) (r : RunResult) (out : List Char)
    (hwf : WFP passNames ps) (hdisk : LFree disk) (hfs : LFree fileSize)
    (hrun : generateHtml notes (flattenP passNames ps) now nowTs disk vaults ext
      fileSize = .ok r)
    (hw : r.written = some out) :
    ∀ nm, ¬ (mkTok nm <:+: out) := by
  unfold generateHtml at hrun
  cases heq : calculateBasicStats notes disk vaults with
  | error e => rw [heq] at hrun; exact absurd hrun (by simp)
  | ok b? =>
    cases b? with
    | none => exact absurd heq (calculateBasicStats_not_none notes disk vaults)
    | some basic =>
      rw [heq] at hrun
      simp only [Except.ok.injEq] at hrun
      rw [← hrun] at hw
      simp only [Option.some.injEq] at hw
      have hdiskb : LFree basic.diskUsage := by
        rw [calculateBasicStats_disk notes disk vaults basic heq]
        exact hdisk
      have hchain :
          replaceAll (renderPasses (flattenP passNames ps)
              (mainSubs basic (calculateTaskStats notes) ext notes now nowTs
                (lengthDistribution notes)))
            (mkTok (("FILE_SIZE").toList)) fileSize =
          renderPasses (flattenP passNames ps)
            (mainSubs basic (calculateTaskStats notes) ext notes now nowTs
                (lengthDistribution notes) ++
              [(("FILE_SIZE").toList, fileSize)]) := by
        simp only [renderPasses, List.foldl_append, List.foldl_cons, List.foldl_nil]
      have hvals : ∀ nv ∈ mainSubs basic (calculateTaskStats notes) ext notes now
          nowTs (lengthDistribution notes) ++ [(("FILE_SIZE").toList, fileSize)],
          nv.1 ∈ passNames ∧ ∀ c ∈ nv.2, c ≠ lbrace := by
        intro nv hnv
        rcases List.mem_append.mp hnv with h | h
        · constructor
          · have h1 : nv.1 ∈ (mainSubs basic (calculateTaskStats notes) ext notes
                now nowTs (lengthDistribution notes)).map Prod.fst :=
              List.mem_map_of_mem Prod.fst h
            rw [← mainSubs_mem_names basic (calculateTaskStats notes) ext notes
              now nowTs (lengthDistribution notes)]
            exact List.mem_append.mpr (Or.inl h1)
          · exact mainSubs_lfree basic (calculateTaskStats notes) ext notes now
              nowTs (lengthDistribution notes) hdiskb nv h
        · have hnv' : nv = ((("FILE_SIZE").toList), fileSize) := by simpa using h
          rw [hnv']
          exact ⟨(by decide : (("FILE_SIZE").toList) ∈ passNames), hfs⟩
      have htoks : ∀ j, Piece.tok j ∈ ps → passNames.getD j [] ∈
          (mainSubs basic (calculateTaskStats notes) ext notes now nowTs
              (lengthDistribution notes) ++
            [(("FILE_SIZE").toList, fileSize)]).map Prod.fst := by
        intro j hj
        have hjlt : j < passNames.length := by
          simpa [pieceOK] using hwf _ hj
        have hmm : passNames.getD j [] ∈ passNames := by
          rw [List.getD_eq_getElem _ _ hjlt]
          exact List.getElem_mem hjlt
        have hmap : (mainSubs basic (calculateTaskStats notes) ext notes now nowTs
            (lengthDistribution notes) ++
              [(("FILE_SIZE").toList, fileSize)]).map Prod.fst = passNames := by
          rw [List.map_append]
          simp only [List.map_cons, List.map_nil]
          exact mainSubs_mem_names basic (calculateTaskStats notes) ext notes now
            nowTs (lengthDistribution notes)
        rw [hmap]
        exact hmm
      obtain ⟨ps', hps', hwf', hnotok⟩ :=
        renderPasses_flattenP passNames (by decide) _ ps hwf hvals htoks
      intro nm
      have hout : out = flattenP passNames ps' := by
        rw [← hw, hchain, hps']
      rw [hout]
      exact no_lbrace_no_tok _
        (flattenP_no_lbrace passNames ps' hwf' (fun j => hnotok j)) nm

/-- Witness for the amended C9: a well-formed template made of the
`TOTAL_NOTES` placeholder followed by a literal `A`, rendered over a
one-note set, yields the output `1A`, which contains no `FOO` token. -/
theorem render_amended_witness :
    ¬ (mkTok (("FOO").toList) <:+: ("1A").toList) :=
  render_amended [demoNote 50] ⟨2026, 1, 1⟩ 0 (("4.0K").toList) 0
    ⟨0, 0, 0, 0, 0, 0, 0, 0, 0, 0, 0, 0, 0⟩ (("12K").toList)
    [Piece.tok 0, Piece.lit 'A']
    { written := some (("1A").toList),
      message := ("Generated /var/www/website/notes.html").toList }
    (("1A").toList)
    (by decide) (by decide) (by decide) (by rfl) rfl (("FOO").toList)

/-- C9 counterexample: a template consisting of the single token
`\x7b\x7bFOO\x7d\x7d` — a placeholder of the form the claim quantifies
over, but not part of the fixed catalog — passes through every
substitution pass untouched: the run succeeds and writes the template
verbatim, so a placeholder token present in the template is still present
in the final output. -/
theorem render_counterexample :
    (mkTok (("FOO").toList) <:+: mkTok (("FOO").toList)) ∧
    generateHtml [demoNote 50] (mkTok (("FOO").toList)) ⟨2026, 1, 1⟩ 0
        (("4.0K").toList) 0 ⟨0, 0, 0, 0, 0, 0, 0, 0, 0, 0, 0, 0, 0⟩
        (("12K").toList) =
      Except.ok { written := some (mkTok (("FOO").toList)),
                  message := ("Generated /var/www/website/notes.html").toList } := by
  exact ⟨⟨[], [], by simp⟩, by rfl⟩

end NotesStats
